import Mathlib

/-!
Shallow embedding of `src/code/genetic_algorithm.py` (the `_uc` file is a
comment-stripped duplicate).  Points are lists of rationals (Python floats
modelled exactly).  All randomness is made explicit: every call that the
Python code makes to the shared `random` source becomes a parameter holding
the drawn values.  `random.randrange(n)` / `random.randint(0, n-1)` are
modelled as `draw % n` (same support, `[0, n)`), `random.randint(1, n-1)` as
`1 + draw % (n-1)`, and `random.uniform(lo, hi)` as an arbitrary rational
supplied by the draw stream (with an interval hypothesis where the claim
needs one).  Calls that raise in Python (`randint` on an empty range,
indexing an empty list) return `none`.
-/

namespace GA

/-- One candidate solution (chromosome): a fixed-length vector of reals. -/
abbrev Point : Type := List ℚ

/-- Embeds `styb_tang`: the Styblinski-Tang fitness function,
`(1/2) * sum_d (d^4 - 16 d^2 + 5 d)` accumulated by a left fold like the
Python loop over `point`. -/
def styb_tang (point : Point) : ℚ :=
  (1 / 2) * point.foldl (fun summ d => summ + (d ^ 4 - 16 * d ^ 2 + 5 * d)) 0

/-- Embeds `initialize_population` (renamed): `size` points of `dim`
coordinates, coordinate `d` of point `p` being the uniform draw
`coordDraws p d` from `[min, max]`. -/
def init_population (size dim : ℕ) (coordDraws : ℕ → ℕ → ℚ) : List Point :=
  (List.range size).map fun p => (List.range dim).map fun d => coordDraws p d

/-- Embeds `crossover`.  `u` is the `random.uniform(0, 1)` draw compared with
`CROSS_RATE` (`crossRate`); the Python guard `u >= CROSS_RATE` returns
deep copies of the parents, i.e. the same values.  Otherwise the pivot is
`random.randint(1, len(parent_a) - 1)`, modelled as `1 + r % (len - 1)`;
for `len < 2` that `randint` call raises `ValueError`, modelled as `none`.
The children are built index by index over `range (len parent_a)` exactly as
the Python loop does. -/
def crossover (crossRate u : ℚ) (r : ℕ) (parent_a parent_b : Point) :
    Option (Point × Point) :=
  if crossRate ≤ u then
    some (parent_a, parent_b)
  else if parent_a.length < 2 then
    none
  else
    let pivot := 1 + r % (parent_a.length - 1)
    some
      ((List.range parent_a.length).map fun i =>
          if i < pivot then parent_a.getD i 0 else parent_b.getD i 0,
       (List.range parent_a.length).map fun i =>
          if i < pivot then parent_b.getD i 0 else parent_a.getD i 0)

/-- Helper for `mutation`: the Python `for i in range(len(child))` loop,
carrying the running index so each coordinate sees its own pair of draws
`(u, diff)` — `u` the `uniform(0,1)` trigger draw compared with `MUTAT_RATE`,
`diff` the `uniform(s_min*0.5, s_max*0.5)` perturbation.  A triggered
coordinate becomes `min (max (x + diff) s_min) s_max` (the two clamp
assignments); an untriggered one is left as it was. -/
def mutation_go (mutRate sMin sMax : ℚ) (draws : ℕ → ℚ × ℚ) :
    ℕ → List ℚ → List ℚ
  | _, [] => []
  | i, x :: xs =>
    (if (draws i).1 ≤ mutRate
      then min (max (x + (draws i).2) sMin) sMax
      else x) :: mutation_go mutRate sMin sMax draws (i + 1) xs

/-- Embeds `mutation`: per-gene triggered perturbation plus clamping into
`[s_min, s_max]`, applied in place in Python and modelled by value here. -/
def mutation (mutRate : ℚ) (draws : ℕ → ℚ × ℚ) (child : Point)
    (sMin sMax : ℚ) : Point :=
  mutation_go mutRate sMin sMax draws 0 child

/-- Embeds `elite_selection`: the first `ceil(len(population) * percent)`
entries of the (already fitness-sorted) population.  The Python loop indexes
`population[i]` for `i < ceil(len * percent)`; for `percent ≤ 1` that count
never exceeds the length, so it is exactly `take`. -/
def elite_selection (population : List Point) (percent : ℚ) : List Point :=
  population.take ⌈(population.length : ℚ) * percent⌉₊

/-- Insertion of a point into a fitness-sorted list, key `f`. -/
def insertByFitness (f : Point → ℚ) (x : Point) : List Point → List Point
  | [] => [x]
  | y :: ys => if f x ≤ f y then x :: y :: ys else y :: insertByFitness f x ys

/-- Embeds Python `sorted(l, key=f)`: a sort of `l` ascending by `f`.  Only
the facts that the head is an `f`-minimal member and that the result is a
permutation matter to the claims, and any correct sort provides them. -/
def sortByFitness (f : Point → ℚ) : List Point → List Point
  | [] => []
  | x :: xs => insertByFitness f x (sortByFitness f xs)

/-- Helper for `tournament_selection`: the Python loop that runs `k` times,
each time popping `population[randint(0, len-1)]` (modelled `draws t % len`)
out of the population and appending it to the tournament.  Returns the
tournament list together with the depleted population. -/
def tournament_draw (draws : ℕ → ℕ) :
    ℕ → ℕ → List Point → List Point × List Point
  | 0, _, population => ([], population)
  | k + 1, t, population =>
    let idx := draws t % population.length
    let picked := population.getD idx []
    let rest := population.eraseIdx idx
    let res := tournament_draw draws k (t + 1) rest
    (picked :: res.1, res.2)

/-- Embeds `tournament_selection`: draw `ceil(len * percent)` entrants
without replacement, sort them — by the hard-coded `styb_tang`, exactly as
line 159 of the source does, NOT by the pluggable fitness function — and
return the first.  `tournament[0]` on an empty tournament raises
`IndexError` in Python, modelled as `none`.  The depleted population is
returned alongside the winner to expose the destructive sampling. -/
def tournament_selection (draws : ℕ → ℕ) (population : List Point)
    (percent : ℚ) : Option (Point × List Point) :=
  let k := ⌈(population.length : ℚ) * percent⌉₊
  let res := tournament_draw draws k 0 population
  match sortByFitness styb_tang res.1 with
  | [] => none
  | w :: _ => some (w, res.2)

/-- Random draws consumed by one attempt of the `evolve` while-loop body:
the two parent-index draws, the crossover-rate draw `u`, the pivot draw `r`,
and the per-gene mutation draw streams for the two children. -/
structure AttemptDraws where
  pa : ℕ
  pb : ℕ
  u : ℚ
  r : ℕ
  mutA : ℕ → ℚ × ℚ
  mutB : ℕ → ℚ × ℚ

/-- Embeds the `while len(new_population) < POP_SIZE` loop of `evolve`,
with explicit fuel since the Python loop need not terminate (when the two
index draws collide the iteration `continue`s without progress).  `t` counts
attempts so each one reads its own draws.  `random.randrange(len(pool))` on
an empty pool raises `ValueError`, modelled as `none`; a `ValueError` from
`crossover` also propagates as `none`. -/
def evolveLoop (popSize : ℕ) (crossRate mutRate sMin sMax : ℚ)
    (draws : ℕ → AttemptDraws) (pool : List Point) :
    ℕ → ℕ → List Point → Option (List Point)
  | 0, _, acc => if popSize ≤ acc.length then some acc else none
  | fuel + 1, t, acc =>
    if popSize ≤ acc.length then some acc
    else if pool.length = 0 then none
    else
      let d := draws t
      let paIdx := d.pa % pool.length
      let pbIdx := d.pb % pool.length
      if paIdx = pbIdx then
        evolveLoop popSize crossRate mutRate sMin sMax draws pool fuel (t + 1) acc
      else
        match crossover crossRate d.u d.r (pool.getD paIdx []) (pool.getD pbIdx []) with
        | none => none
        | some (ca, cb) =>
          evolveLoop popSize crossRate mutRate sMin sMax draws pool fuel (t + 1)
            (acc ++ [mutation mutRate d.mutA ca sMin sMax,
                     mutation mutRate d.mutB cb sMin sMax])

/-- Embeds `evolve(mating_pool, elites)`: seed the new population with the
elites verbatim, then fill it with mutated crossover offspring of parents
drawn at distinct positions of the mating pool. -/
def evolve (popSize : ℕ) (crossRate mutRate sMin sMax : ℚ)
    (draws : ℕ → AttemptDraws) (mating_pool elites : List Point)
    (fuel : ℕ) : Option (List Point) :=
  evolveLoop popSize crossRate mutRate sMin sMax draws mating_pool fuel 0 elites

/-- Embeds one iteration of the `for e in range(1, epochs+1)` loop of
`genetic_algorithm`: sort by the fitness function, select elites, delete
them from the working population, run tournament selection on the remainder,
build the mating pool as elites plus the tournament winner, and evolve. -/
def generation (popSize : ℕ) (el_p to_p crossRate mutRate sMin sMax : ℚ)
    (f : Point → ℚ) (tourDraws : ℕ → ℕ) (evDraws : ℕ → AttemptDraws)
    (fuel : ℕ) (population : List Point) : Option (List Point) :=
  let sortedPop := sortByFitness f population
  let elites := elite_selection sortedPop el_p
  let rest := sortedPop.drop elites.length
  match tournament_selection tourDraws rest to_p with
  | none => none
  | some (t_winner, _) =>
    let mating_pool := elites ++ [t_winner]
    evolve popSize crossRate mutRate sMin sMax evDraws mating_pool elites fuel

/-- Coordinates of a point all lie in the closed interval `[sMin, sMax]`. -/
abbrev inBounds (sMin sMax : ℚ) (pt : Point) : Prop :=
  ∀ x ∈ pt, sMin ≤ x ∧ x ≤ sMax

/-- Best (minimal) fitness value present in a population: the fold the
final `sorted`-then-`population[0]` reporting step observes.  Defined as a
plain fold so it is total; only used on nonempty populations. -/
def bestFitness (f : Point → ℚ) : List Point → ℚ
  | [] => 0
  | x :: xs => xs.foldl (fun m y => min m (f y)) (f x)

end GA

/-! ### Helper lemmas -/

namespace GA

theorem range_map_getD (n : ℕ) (g : ℕ → ℚ) (i : ℕ) (h : i < n) :
    ((List.range n).map g).getD i 0 = g i := by
  simp [List.getD_eq_getElem?_getD, List.getElem?_map, List.getElem?_range h]

theorem getD_eq_zero_of_le {l : List ℚ} {i : ℕ} (h : l.length ≤ i) :
    l.getD i 0 = 0 := by
  simp [List.getD_eq_getElem?_getD, List.getElem?_eq_none h]

theorem getD_mem_of_lt {l : List ℚ} {i : ℕ} (h : i < l.length) :
    l.getD i 0 ∈ l := by
  rw [List.getD_eq_getElem?_getD, List.getElem?_eq_getElem h]
  exact List.getElem_mem h

theorem mutation_go_length (mutRate sMin sMax : ℚ) (draws : ℕ → ℚ × ℚ) :
    ∀ (l : List ℚ) (k : ℕ),
      (mutation_go mutRate sMin sMax draws k l).length = l.length := by
  intro l
  induction l with
  | nil => intro k; rfl
  | cons x xs ih => intro k; simp [mutation_go, ih (k + 1)]

theorem mutation_go_getD (mutRate sMin sMax : ℚ) (draws : ℕ → ℚ × ℚ) :
    ∀ (l : List ℚ) (k i : ℕ), i < l.length →
      (mutation_go mutRate sMin sMax draws k l).getD i 0 =
        if (draws (k + i)).1 ≤ mutRate
          then min (max (l.getD i 0 + (draws (k + i)).2) sMin) sMax
          else l.getD i 0 := by
  intro l
  induction l with
  | nil => intro k i h; simp at h
  | cons x xs ih =>
    intro k i h
    match i with
    | 0 => simp [mutation_go]
    | j + 1 =>
      have hj : j < xs.length := by simpa using h
      have := ih (k + 1) j hj
      simpa [mutation_go, Nat.add_assoc, Nat.add_comm 1 j] using this

theorem mutation_go_inBounds (mutRate sMin sMax : ℚ) (draws : ℕ → ℚ × ℚ)
    (hms : sMin ≤ sMax) :
    ∀ (l : List ℚ) (k : ℕ), (∀ x ∈ l, sMin ≤ x ∧ x ≤ sMax) →
      ∀ y ∈ mutation_go mutRate sMin sMax draws k l, sMin ≤ y ∧ y ≤ sMax := by
  intro l
  induction l with
  | nil => intro k _ y hy; simp [mutation_go] at hy
  | cons x xs ih =>
    intro k hl y hy
    simp only [mutation_go, List.mem_cons] at hy
    rcases hy with hy | hy
    · subst hy
      by_cases htrig : (draws k).1 ≤ mutRate
      · rw [if_pos htrig]
        refine ⟨le_min (le_max_right _ _) hms, min_le_right _ _⟩
      · rw [if_neg htrig]
        exact hl x (List.mem_cons_self x xs)
    · exact ih (k + 1) (fun z hz => hl z (List.mem_cons_of_mem x hz)) y hy

end GA

namespace GA

/-- C7: when the crossover-rate draw skips recombination (the Python guard
`uniform(0,1) >= CROSS_RATE`, i.e. `crossRate ≤ u` — always taken when
`crossRate = 0`), `crossover` returns the two parents' values unchanged.
The source materialises them as `copy.deepcopy`, so the returned children
share no storage with the parents; in this by-value embedding that is
exactly value equality. -/
theorem crossover_identity (crossRate u : ℚ) (r : ℕ) (a b : Point)
    (hskip : crossRate ≤ u) :
    crossover crossRate u r a b = some (a, b) := by
  simp [crossover, hskip]

/-- Witness for C7 at `crossRate = 0`. -/
theorem crossover_identity_witness :
    crossover 0 (1 / 2) 3 [1, 2] [5, 6] = some ([1, 2], [5, 6]) :=
  crossover_identity 0 (1 / 2) 3 [1, 2] [5, 6] (by norm_num)

/-- C6: when recombination occurs (`u < crossRate`) on parents of equal
length `dim ≥ 2`, the pivot `p = 1 + r % (dim - 1)` lies in `[1, dim-1]`,
and gene `i` of child A (resp. B) comes from parent A (resp. B) for `i < p`
and from parent B (resp. A) for `p ≤ i`. -/
theorem crossover_pivot_property (crossRate u : ℚ) (r : ℕ) (a b : Point)
    (hu : u < crossRate) (hlen : b.length = a.length) (hdim : 2 ≤ a.length) :
    ∃ ca cb, crossover crossRate u r a b = some (ca, cb) ∧
      1 ≤ 1 + r % (a.length - 1) ∧ 1 + r % (a.length - 1) ≤ a.length - 1 ∧
      ca.length = a.length ∧ cb.length = a.length ∧
      ∀ i < a.length,
        (i < 1 + r % (a.length - 1) →
          ca.getD i 0 = a.getD i 0 ∧ cb.getD i 0 = b.getD i 0) ∧
        (1 + r % (a.length - 1) ≤ i →
          ca.getD i 0 = b.getD i 0 ∧ cb.getD i 0 = a.getD i 0) := by
  have hcr : ¬ crossRate ≤ u := not_le.mpr hu
  have h2 : ¬ a.length < 2 := not_lt.mpr hdim
  have hmod : r % (a.length - 1) < a.length - 1 :=
    Nat.mod_lt r (by omega)
  refine ⟨(List.range a.length).map fun i =>
      if i < 1 + r % (a.length - 1) then a.getD i 0 else b.getD i 0,
    (List.range a.length).map fun i =>
      if i < 1 + r % (a.length - 1) then b.getD i 0 else a.getD i 0,
    ?_, Nat.le_add_right 1 _, by omega, by simp, by simp, ?_⟩
  · simp only [crossover, if_neg hcr, if_neg h2]
  · intro i hi
    constructor
    · intro hip
      rw [range_map_getD _ _ _ hi, range_map_getD _ _ _ hi,
        if_pos hip, if_pos hip]
      exact ⟨rfl, rfl⟩
    · intro hpi
      rw [range_map_getD _ _ _ hi, range_map_getD _ _ _ hi,
        if_neg (not_lt.mpr hpi), if_neg (not_lt.mpr hpi)]
      exact ⟨rfl, rfl⟩

/-- Witness for C6: parents `[1,2,3,4]` and `[5,6,7,8]`, pivot draw `r = 1`
giving pivot `2`; gene 0 of child A is parent A's, gene 3 is parent B's. -/
theorem crossover_pivot_property_witness :
    ∃ ca cb, crossover 1 (1 / 2) 1 [1, 2, 3, 4] [5, 6, 7, 8] = some (ca, cb) ∧
      ca.getD 0 0 = 1 ∧ ca.getD 3 0 = 8 ∧ cb.getD 3 0 = 4 := by
  obtain ⟨ca, cb, heq, -, -, -, -, hidx⟩ :=
    crossover_pivot_property 1 (1 / 2) 1 [1, 2, 3, 4] [5, 6, 7, 8]
      (by norm_num) (by decide) (by decide)
  refine ⟨ca, cb, heq, ?_, ?_, ?_⟩
  · have h := ((hidx 0 (by decide)).1 (by decide)).1
    exact h.trans (by decide)
  · have h := ((hidx 3 (by decide)).2 (by decide)).1
    exact h.trans (by decide)
  · have h := ((hidx 3 (by decide)).2 (by decide)).2
    exact h.trans (by decide)

/-- C9 (implicit): whenever recombination occurs on equal-length parents,
each gene position of the two children holds a permutation of the two
parents' genes at that position, and both children keep the parents'
length. -/
theorem crossover_gene_conservation (crossRate u : ℚ) (r : ℕ) (a b : Point)
    (hu : u < crossRate) (hlen : b.length = a.length) (hdim : 2 ≤ a.length) :
    ∃ ca cb, crossover crossRate u r a b = some (ca, cb) ∧
      ca.length = a.length ∧ cb.length = b.length ∧
      ∀ i, (ca.getD i 0 = a.getD i 0 ∧ cb.getD i 0 = b.getD i 0) ∨
           (ca.getD i 0 = b.getD i 0 ∧ cb.getD i 0 = a.getD i 0) := by
  have hcr : ¬ crossRate ≤ u := not_le.mpr hu
  have h2 : ¬ a.length < 2 := not_lt.mpr hdim
  refine ⟨(List.range a.length).map fun j =>
      if j < 1 + r % (a.length - 1) then a.getD j 0 else b.getD j 0,
    (List.range a.length).map fun j =>
      if j < 1 + r % (a.length - 1) then b.getD j 0 else a.getD j 0,
    ?_, by simp, by simp [hlen], ?_⟩
  · simp only [crossover, if_neg hcr, if_neg h2]
  · intro i
    by_cases hi : i < a.length
    · by_cases hip : i < 1 + r % (a.length - 1)
      · exact Or.inl (by rw [range_map_getD _ _ _ hi, range_map_getD _ _ _ hi,
          if_pos hip, if_pos hip]; exact ⟨rfl, rfl⟩)
      · exact Or.inr (by rw [range_map_getD _ _ _ hi, range_map_getD _ _ _ hi,
          if_neg hip, if_neg hip]; exact ⟨rfl, rfl⟩)
    · push_neg at hi
      have hca : ((List.range a.length).map fun j =>
          if j < 1 + r % (a.length - 1) then a.getD j 0 else b.getD j 0).getD i 0 = 0 :=
        getD_eq_zero_of_le (by simpa using hi)
      have hcb : ((List.range a.length).map fun j =>
          if j < 1 + r % (a.length - 1) then b.getD j 0 else a.getD j 0).getD i 0 = 0 :=
        getD_eq_zero_of_le (by simpa using hi)
      have ha0 : a.getD i 0 = 0 := getD_eq_zero_of_le hi
      have hb0 : b.getD i 0 = 0 := getD_eq_zero_of_le (hlen ▸ hi)
      exact Or.inl ⟨by rw [hca, ha0], by rw [hcb, hb0]⟩

/-- Witness for C9 with parents `[1,2,3]` and `[4,5,6]`. -/
theorem crossover_gene_conservation_witness :
    ∃ ca cb, crossover 1 0 5 [1, 2, 3] [4, 5, 6] = some (ca, cb) ∧
      (ca.getD 1 0 = (2 : ℚ) ∨ ca.getD 1 0 = (5 : ℚ)) := by
  obtain ⟨ca, cb, heq, -, -, hperm⟩ :=
    crossover_gene_conservation 1 0 5 [1, 2, 3] [4, 5, 6]
      (by norm_num) (by decide) (by decide)
  refine ⟨ca, cb, heq, ?_⟩
  rcases hperm 1 with h | h
  · exact Or.inl (h.1.trans (by decide))
  · exact Or.inr (h.1.trans (by decide))

/-- C10 (implicit): mutation preserves the length of its argument (the
Python code updates the list in place and returns the same list, modelled by
value), leaves every coordinate whose trigger draw exceeds `MUTAT_RATE`
unchanged, and replaces every triggered coordinate by its perturbed value
clamped into `[sMin, sMax]`. -/
theorem mutation_frame (mutRate sMin sMax : ℚ) (draws : ℕ → ℚ × ℚ)
    (child : Point) :
    (mutation mutRate draws child sMin sMax).length = child.length ∧
    ∀ i < child.length,
      ((draws i).1 ≤ mutRate →
        (mutation mutRate draws child sMin sMax).getD i 0 =
          min (max (child.getD i 0 + (draws i).2) sMin) sMax) ∧
      (¬ (draws i).1 ≤ mutRate →
        (mutation mutRate draws child sMin sMax).getD i 0 = child.getD i 0) := by
  simp only [mutation]
  refine ⟨mutation_go_length mutRate sMin sMax draws child 0, ?_⟩
  intro i hi
  have h := mutation_go_getD mutRate sMin sMax draws child 0 i hi
  rw [Nat.zero_add] at h
  constructor
  · intro htrig; rw [h, if_pos htrig]
  · intro htrig; rw [h, if_neg htrig]

/-- Witness for C10: with `MUTAT_RATE = 1` every gene is triggered and the
overshooting perturbation `+100` is clamped to `5`; with `MUTAT_RATE = 0`
nothing is triggered and gene 1 keeps its value `2`. -/
theorem mutation_frame_witness :
    (mutation 1 (fun _ => (0, 100)) [1, 2] (-5) 5).getD 0 0 = 5 ∧
    (mutation 0 (fun _ => (1, 100)) [1, 2] (-5) 5).getD 1 0 = 2 := by
  constructor
  · have h := ((mutation_frame 1 (-5) 5 (fun _ => (0, 100)) [1, 2]).2
      0 (by decide)).1 (by norm_num)
    exact h.trans (by with_unfolding_all decide)
  · have h := ((mutation_frame 0 (-5) 5 (fun _ => (1, 100)) [1, 2]).2
      1 (by decide)).2 (by norm_num)
    exact h.trans (by decide)

end GA

namespace GA

/-- C2: bounds invariant.  Provided `sMin ≤ sMax`, every coordinate of every
individual lies in `[sMin, sMax]` at each observation point: after
initialization (the uniform draws land in the interval by the RNG contract),
after crossover (children only rearrange parent genes), and after mutation
(triggered genes are clamped, untriggered genes are unchanged). -/
theorem bounds_invariant (sMin sMax : ℚ) (hms : sMin ≤ sMax) :
    (∀ (size dim : ℕ) (coordDraws : ℕ → ℕ → ℚ),
        (∀ p d, sMin ≤ coordDraws p d ∧ coordDraws p d ≤ sMax) →
        ∀ pt ∈ init_population size dim coordDraws, inBounds sMin sMax pt) ∧
    (∀ (crossRate u : ℚ) (r : ℕ) (a b ca cb : Point),
        b.length = a.length →
        inBounds sMin sMax a → inBounds sMin sMax b →
        crossover crossRate u r a b = some (ca, cb) →
        inBounds sMin sMax ca ∧ inBounds sMin sMax cb) ∧
    (∀ (mutRate : ℚ) (draws : ℕ → ℚ × ℚ) (child : Point),
        inBounds sMin sMax child →
        inBounds sMin sMax (mutation mutRate draws child sMin sMax)) := by
  refine ⟨?_, ?_, ?_⟩
  · intro size dim coordDraws hdr pt hpt
    simp only [init_population, List.mem_map] at hpt
    obtain ⟨p, -, rfl⟩ := hpt
    intro x hx
    simp only [List.mem_map] at hx
    obtain ⟨d, -, rfl⟩ := hx
    exact hdr p d
  · intro crossRate u r a b ca cb hlen ha hb heq
    simp only [crossover] at heq
    by_cases hskip : crossRate ≤ u
    · rw [if_pos hskip] at heq
      obtain ⟨rfl, rfl⟩ : a = ca ∧ b = cb := by
        simpa [Prod.ext_iff] using heq
      exact ⟨ha, hb⟩
    · rw [if_neg hskip] at heq
      by_cases h2 : a.length < 2
      · rw [if_pos h2] at heq
        exact absurd heq (by simp)
      · rw [if_neg h2] at heq
        have hmix : ∀ (x y : Point), inBounds sMin sMax x → inBounds sMin sMax y →
            y.length = x.length →
            inBounds sMin sMax ((List.range x.length).map fun i =>
              if i < 1 + r % (x.length - 1) then x.getD i 0 else y.getD i 0) := by
          intro x y hx hy hxy z hz
          simp only [List.mem_map, List.mem_range] at hz
          obtain ⟨i, hi, rfl⟩ := hz
          by_cases hip : i < 1 + r % (x.length - 1)
          · rw [if_pos hip]
            exact hx _ (getD_mem_of_lt hi)
          · rw [if_neg hip]
            exact hy _ (getD_mem_of_lt (by omega))
        obtain ⟨rfl, rfl⟩ :
            ((List.range a.length).map fun i =>
              if i < 1 + r % (a.length - 1) then a.getD i 0 else b.getD i 0) = ca ∧
            ((List.range a.length).map fun i =>
              if i < 1 + r % (a.length - 1) then b.getD i 0 else a.getD i 0) = cb := by
          simpa [Prod.ext_iff] using heq
        refine ⟨hmix a b ha hb hlen, ?_⟩
        have := hmix b a hb ha (by omega)
        simpa [hlen] using this
  · intro mutRate draws child hchild
    exact mutation_go_inBounds mutRate sMin sMax draws hms child 0 hchild

/-- Witness for C2: the mutation clamp keeps the overshooting `+100`
perturbation of `[0, 1]` inside `[-5, 5]`. -/
theorem bounds_invariant_witness :
    inBounds (-5) 5 (mutation 1 (fun _ => (0, 100)) [0, 1] (-5) 5) :=
  (bounds_invariant (-5) 5 (by norm_num)).2.2 1 (fun _ => (0, 100)) [0, 1]
    (by with_unfolding_all decide)

end GA

namespace GA

theorem ceil_mul_pos {n : ℕ} {p : ℚ} (hn : 0 < n) (hp : 0 < p) :
    1 ≤ ⌈(n : ℚ) * p⌉₊ :=
  Nat.ceil_pos.mpr (mul_pos (by exact_mod_cast hn) hp)

theorem ceil_mul_le {n : ℕ} {p : ℚ} (hp : p ≤ 1) :
    ⌈(n : ℚ) * p⌉₊ ≤ n := by
  calc ⌈(n : ℚ) * p⌉₊ ≤ ⌈((n : ℕ) : ℚ)⌉₊ :=
        Nat.ceil_le_ceil (mul_le_of_le_one_right (by positivity) hp)
    _ = n := Nat.ceil_natCast n

theorem sortByFitness_head_min (f : Point → ℚ) :
    ∀ (l : List Point), l ≠ [] →
      ∃ w t, sortByFitness f l = w :: t ∧ w ∈ l ∧ ∀ x ∈ l, f w ≤ f x := by
  intro l
  induction l with
  | nil => intro h; exact absurd rfl h
  | cons x xs ih =>
    intro _
    by_cases hxs : xs = []
    · subst hxs
      refine ⟨x, [], by simp [sortByFitness, insertByFitness], by simp, ?_⟩
      intro y hy
      rw [List.mem_singleton.mp hy]
    · obtain ⟨w, t, hsort, hmem, hmin⟩ := ih hxs
      by_cases hfx : f x ≤ f w
      · refine ⟨x, w :: t, ?_, List.mem_cons_self x xs, ?_⟩
        · rw [show sortByFitness f (x :: xs) =
              insertByFitness f x (sortByFitness f xs) from rfl, hsort]
          simp [insertByFitness, hfx]
        · intro y hy
          rcases List.mem_cons.mp hy with rfl | hy
          · exact le_refl _
          · exact le_trans hfx (hmin y hy)
      · refine ⟨w, insertByFitness f x t, ?_, List.mem_cons_of_mem x hmem, ?_⟩
        · rw [show sortByFitness f (x :: xs) =
              insertByFitness f x (sortByFitness f xs) from rfl, hsort]
          simp [insertByFitness, hfx]
        · intro y hy
          rcases List.mem_cons.mp hy with rfl | hy
          · exact (not_le.mp hfx).le
          · exact hmin y hy

theorem perm_getD_cons_eraseIdx :
    ∀ (l : List Point) (i : ℕ), i < l.length →
      l.Perm (l.getD i [] :: l.eraseIdx i) := by
  intro l
  induction l with
  | nil => intro i h; simp at h
  | cons x xs ih =>
    intro i h
    match i with
    | 0 => simp
    | j + 1 =>
      have hj : j < xs.length := by simpa using h
      have hperm := ih j hj
      simp only [List.getD_cons_succ, List.eraseIdx_cons_succ]
      exact (hperm.cons x).trans (List.Perm.swap (xs.getD j []) x (xs.eraseIdx j))

theorem tournament_draw_spec (draws : ℕ → ℕ) :
    ∀ (k t : ℕ) (population : List Point), k ≤ population.length →
      (tournament_draw draws k t population).1.length = k ∧
      (tournament_draw draws k t population).2.length = population.length - k ∧
      population.Perm
        ((tournament_draw draws k t population).1 ++
          (tournament_draw draws k t population).2) := by
  intro k
  induction k with
  | zero => intro t population h; simp [tournament_draw]
  | succ k ih =>
    intro t population h
    have hpos : 0 < population.length := by omega
    have hidx : draws t % population.length < population.length :=
      Nat.mod_lt _ hpos
    have hrest : (population.eraseIdx (draws t % population.length)).length
        = population.length - 1 := List.length_eraseIdx_of_lt hidx
    obtain ⟨h1, h2, h3⟩ :=
      ih (t + 1) (population.eraseIdx (draws t % population.length)) (by omega)
    simp only [tournament_draw]
    refine ⟨by simp [h1], by simp [h2, hrest]; omega, ?_⟩
    have hp1 := perm_getD_cons_eraseIdx population (draws t % population.length) hidx
    exact hp1.trans (h3.cons _)

end GA

namespace GA

/-- C8: tournament selection contract.  On a nonempty population with
proportion in `(0, 1]`, exactly `ceil(len * percent)` entrants are drawn,
each removed from the population as it is drawn (without replacement: the
input population is exactly the entrants plus the residual, as multisets),
and the returned winner is an entrant with minimal fitness — fitness here
being `styb_tang`, the sort key the source hard-codes at line 159. -/
theorem tournament_selection_contract (draws : ℕ → ℕ) (population : List Point)
    (percent : ℚ) (hne : population ≠ []) (hp0 : 0 < percent)
    (hp1 : percent ≤ 1) :
    ∃ winner rem,
      tournament_selection draws population percent = some (winner, rem) ∧
      rem = (tournament_draw draws ⌈(population.length : ℚ) * percent⌉₊
        0 population).2 ∧
      (tournament_draw draws ⌈(population.length : ℚ) * percent⌉₊
        0 population).1.length = ⌈(population.length : ℚ) * percent⌉₊ ∧
      rem.length = population.length - ⌈(population.length : ℚ) * percent⌉₊ ∧
      population.Perm
        ((tournament_draw draws ⌈(population.length : ℚ) * percent⌉₊
          0 population).1 ++ rem) ∧
      winner ∈ (tournament_draw draws ⌈(population.length : ℚ) * percent⌉₊
        0 population).1 ∧
      ∀ x ∈ (tournament_draw draws ⌈(population.length : ℚ) * percent⌉₊
        0 population).1, styb_tang winner ≤ styb_tang x := by
  have hlenpos : 0 < population.length := List.length_pos.mpr hne
  have hk1 : 1 ≤ ⌈(population.length : ℚ) * percent⌉₊ := ceil_mul_pos hlenpos hp0
  have hkle : ⌈(population.length : ℚ) * percent⌉₊ ≤ population.length :=
    ceil_mul_le hp1
  obtain ⟨h1, h2, h3⟩ := tournament_draw_spec draws _ 0 population hkle
  have htne : (tournament_draw draws ⌈(population.length : ℚ) * percent⌉₊
      0 population).1 ≠ [] := by
    intro hemp
    rw [hemp] at h1
    simp only [List.length_nil] at h1
    omega
  obtain ⟨w, ws, hsort, hwmem, hwmin⟩ := sortByFitness_head_min styb_tang _ htne
  refine ⟨w, _, ?_, rfl, h1, h2, h3, hwmem, hwmin⟩
  simp only [tournament_selection]
  rw [hsort]

/-- Witness for C8: population `[[0],[1],[2]]`, proportion `2/3`
(two entrants), index draws all `0`. -/
theorem tournament_selection_contract_witness :
    ∃ winner rem,
      tournament_selection (fun _ => 0) [[0], [1], [2]] (2 / 3)
        = some (winner, rem) := by
  obtain ⟨w, rem, heq, -⟩ :=
    tournament_selection_contract (fun _ => 0) [[0], [1], [2]] (2 / 3)
      (by decide) (by norm_num) (by norm_num)
  exact ⟨w, rem, heq⟩

end GA

namespace GA

theorem foldl_min_le (f : Point → ℚ) :
    ∀ (l : List Point) (a : ℚ),
      l.foldl (fun m y => min m (f y)) a ≤ a ∧
      ∀ x ∈ l, l.foldl (fun m y => min m (f y)) a ≤ f x := by
  intro l
  induction l with
  | nil => intro a; exact ⟨le_refl a, by simp⟩
  | cons z zs ih =>
    intro a
    simp only [List.foldl_cons]
    obtain ⟨h1, h2⟩ := ih (min a (f z))
    refine ⟨le_trans h1 (min_le_left _ _), ?_⟩
    intro x hx
    rcases List.mem_cons.mp hx with rfl | hx
    · exact le_trans h1 (min_le_right _ _)
    · exact h2 x hx

theorem foldl_min_exists (f : Point → ℚ) :
    ∀ (l : List Point) (a : ℚ),
      l.foldl (fun m y => min m (f y)) a = a ∨
      ∃ x ∈ l, l.foldl (fun m y => min m (f y)) a = f x := by
  intro l
  induction l with
  | nil => intro a; exact Or.inl rfl
  | cons z zs ih =>
    intro a
    simp only [List.foldl_cons]
    rcases ih (min a (f z)) with h | ⟨x, hx, h⟩
    · rcases le_total a (f z) with hle | hle
      · exact Or.inl (by rw [h, min_eq_left hle])
      · exact Or.inr ⟨z, List.mem_cons_self z zs, by rw [h, min_eq_right hle]⟩
    · exact Or.inr ⟨x, List.mem_cons_of_mem z hx, h⟩

theorem bestFitness_le (f : Point → ℚ) :
    ∀ (l : List Point), ∀ x ∈ l, bestFitness f l ≤ f x := by
  intro l
  match l with
  | [] => intro x hx; simp at hx
  | z :: zs =>
    intro x hx
    simp only [bestFitness]
    rcases List.mem_cons.mp hx with rfl | hx
    · exact (foldl_min_le f zs (f x)).1
    · exact (foldl_min_le f zs (f z)).2 x hx

theorem bestFitness_mem (f : Point → ℚ) :
    ∀ (l : List Point), l ≠ [] → ∃ x ∈ l, bestFitness f l = f x := by
  intro l hne
  match l with
  | z :: zs =>
    simp only [bestFitness]
    rcases foldl_min_exists f zs (f z) with h | ⟨x, hx, h⟩
    · exact ⟨z, List.mem_cons_self z zs, h⟩
    · exact ⟨x, List.mem_cons_of_mem z hx, h⟩

theorem evolveLoop_append (popSize : ℕ) (crossRate mutRate sMin sMax : ℚ)
    (draws : ℕ → AttemptDraws) (pool : List Point) :
    ∀ (fuel t : ℕ) (acc res : List Point),
      evolveLoop popSize crossRate mutRate sMin sMax draws pool fuel t acc
        = some res → ∃ tail, res = acc ++ tail := by
  intro fuel
  induction fuel with
  | zero =>
    intro t acc res h
    simp only [evolveLoop] at h
    by_cases hp : popSize ≤ acc.length
    · rw [if_pos hp] at h
      exact ⟨[], by simp [(Option.some.inj h).symm]⟩
    · rw [if_neg hp] at h
      exact absurd h (by simp)
  | succ fuel ih =>
    intro t acc res h
    simp only [evolveLoop] at h
    by_cases hp : popSize ≤ acc.length
    · rw [if_pos hp] at h
      exact ⟨[], by simp [(Option.some.inj h).symm]⟩
    · rw [if_neg hp] at h
      by_cases hpool : pool.length = 0
      · rw [if_pos hpool] at h
        exact absurd h (by simp)
      · rw [if_neg hpool] at h
        by_cases hidx : (draws t).pa % pool.length = (draws t).pb % pool.length
        · rw [if_pos hidx] at h
          exact ih (t + 1) acc res h
        · rw [if_neg hidx] at h
          cases hcr : crossover crossRate (draws t).u (draws t).r
              (pool.getD ((draws t).pa % pool.length) [])
              (pool.getD ((draws t).pb % pool.length) []) with
          | none =>
            rw [hcr] at h
            exact absurd h (by simp)
          | some pr =>
            obtain ⟨ca, cb⟩ := pr
            rw [hcr] at h
            obtain ⟨tail, htail⟩ := ih (t + 1) _ res h
            exact ⟨_, by rw [htail, List.append_assoc]⟩

end GA

namespace GA

/-- C3: elitism monotonicity.  For any nonempty population and any
`elite_proportion > 0`, whenever one generation step completes, the minimum
fitness value present in the produced population is at most the minimum
fitness value present in the input population: the fitness-sorted head is
selected as an elite (ceiling gives at least one elite) and `evolve` copies
the elites verbatim into the next population. -/
theorem elitism_monotonicity (popSize : ℕ)
    (el_p to_p crossRate mutRate sMin sMax : ℚ) (f : Point → ℚ)
    (tourDraws : ℕ → ℕ) (evDraws : ℕ → AttemptDraws) (fuel : ℕ)
    (population newPop : List Point)
    (hne : population ≠ []) (hel : 0 < el_p)
    (hgen : generation popSize el_p to_p crossRate mutRate sMin sMax f
      tourDraws evDraws fuel population = some newPop) :
    bestFitness f newPop ≤ bestFitness f population := by
  obtain ⟨w, t, hsort, hwmem, hwmin⟩ := sortByFitness_head_min f population hne
  have hlen1 : 0 < (sortByFitness f population).length := by
    rw [hsort]; simp
  have hk : 1 ≤ ⌈((sortByFitness f population).length : ℚ) * el_p⌉₊ :=
    ceil_mul_pos hlen1 hel
  obtain ⟨m, hm⟩ :
      ∃ m, ⌈((sortByFitness f population).length : ℚ) * el_p⌉₊ = m + 1 :=
    ⟨_, (Nat.succ_pred_eq_of_pos hk).symm⟩
  have helites : elite_selection (sortByFitness f population) el_p
      = w :: List.take m t := by
    simp only [elite_selection]
    rw [hm, hsort, List.take_succ_cons]
  simp only [generation] at hgen
  cases htour : tournament_selection tourDraws
      ((sortByFitness f population).drop
        (elite_selection (sortByFitness f population) el_p).length) to_p with
  | none =>
    rw [htour] at hgen
    exact absurd hgen (by simp)
  | some pr =>
    obtain ⟨t_winner, restPop⟩ := pr
    rw [htour] at hgen
    simp only [evolve] at hgen
    obtain ⟨tail, hnew⟩ :=
      evolveLoop_append popSize crossRate mutRate sMin sMax evDraws
        (elite_selection (sortByFitness f population) el_p ++ [t_winner])
        fuel 0 _ newPop hgen
    have hwmemNew : w ∈ newPop := by
      rw [hnew, helites]
      exact List.mem_append_left _ (List.mem_cons_self _ _)
    obtain ⟨z, hz, hzeq⟩ := bestFitness_mem f population hne
    rw [hzeq]
    exact le_trans (bestFitness_le f newPop w hwmemNew) (hwmin z hz)

/-- Witness for C3: one generation on `[[1],[2]]` with the Styblinski-Tang
fitness, elite proportion `1/2`, tournament proportion `1/2`, crossover and
mutation switched off by the draws; the step returns `[[2],[2],[1]]` and the
best fitness does not increase. -/
theorem elitism_monotonicity_witness :
    bestFitness styb_tang [[2], [2], [1]] ≤ bestFitness styb_tang [[1], [2]] :=
  elitism_monotonicity 2 (1 / 2) (1 / 2) 0 0 (-5) 5 styb_tang (fun _ => 0)
    (fun _ => ⟨0, 1, 1, 0, fun _ => (1, 0), fun _ => (1, 0)⟩) 5
    [[1], [2]] [[2], [2], [1]]
    (by decide) (by norm_num) (by with_unfolding_all decide)

end GA

namespace GA

/-- C1: population size.  The claim that `evolve` always returns exactly
`pop_size` individuals fails when `pop_size` minus the elite count is odd:
with `POP_SIZE = 5` and elite proportion `3/10` (a valid configuration:
`ceil(5 * 3/10) = 2` elites), the offspring loop appends children two at a
time with no truncation and returns `6` individuals.  This theorem evaluates
the embedded `evolve` at that failing input (crossover skipped and mutation
untriggered by the supplied draws, parent indices `0` and `1`). -/
theorem evolve_population_size_overshoot :
    (elite_selection [[0], [1], [2], [3], [4]] (3 / 10)).length = 2 ∧
    evolve 5 0 0 (-5) 5
      (fun _ => ⟨0, 1, 1, 0, fun _ => (1, 0), fun _ => (1, 0)⟩)
      [[0], [1], [2]] [[0], [1]] 10
      = some [[0], [1], [0], [1], [0], [1]] ∧
    ([[0], [1], [0], [1], [0], [1]] : List Point).length = 6 := by
  refine ⟨?_, ?_, rfl⟩
  · with_unfolding_all decide
  · with_unfolding_all decide

/-- C4: degenerate mating pool.  The source has no `DegenerateMatingPool`
check at all; when the mating pool holds a single positional entry (elite
count `0`, pool = the tournament winner alone) the two index draws of the
`evolve` loop are both `x % 1 = 0`, every iteration hits `continue`, and the
loop never terminates: the fuel-bounded embedding returns `none` for every
fuel bound and every draw stream, instead of raising an error before
evolving. -/
theorem evolve_degenerate_pool_never_terminates (p : Point)
    (crossRate mutRate sMin sMax : ℚ) (draws : ℕ → AttemptDraws)
    (fuel : ℕ) :
    evolve 2 crossRate mutRate sMin sMax draws [p] [] fuel = none := by
  simp only [evolve]
  suffices h : ∀ (n t : ℕ),
      evolveLoop 2 crossRate mutRate sMin sMax draws [p] n t [] = none by
    exact h fuel 0
  intro n
  induction n with
  | zero => intro t; simp [evolveLoop]
  | succ n ih =>
    intro t
    simp only [evolveLoop]
    rw [if_neg (by simp), if_neg (by simp),
      if_pos (by simp [Nat.mod_one])]
    exact ih (t + 1)

/-- C5: pluggable fitness.  `tournament_selection` ranks entrants with the
hard-coded `styb_tang`, not the fitness function passed to
`genetic_algorithm`: with population `[[0],[1]]` and proportion `1` both
points enter the tournament, the code returns `[1]` (the `styb_tang`
minimum), yet under the fitness `f = -styb_tang` the strictly better entrant
is `[0]` — so selection does not rank by `f` alone. -/
theorem tournament_selection_uses_builtin_fitness :
    (tournament_draw (fun _ => 0) 2 0 [[0], [1]]).1 = [[0], [1]] ∧
    tournament_selection (fun _ => 0) [[0], [1]] 1 = some ([1], []) ∧
    -styb_tang [0] < -styb_tang [1] := by
  refine ⟨?_, ?_, ?_⟩ <;> with_unfolding_all decide

end GA
